import Mathlib

/-!
Verification of the NeoMutt browser/menu/dispatch dialog layer.

The definitions below are shallow embeddings of the C sources:
  src/gui/global.c        (window tree operation dispatch)
  src/menu/functions.c    (menu dialog keys, jump)
  src/conn/dlg_verifycert.c (certificate verification dialog loop)
  src/browser/browser.c   (directory scanning, tagging)
  src/browser/functions.c (browser command handlers)
C strings are embedded as `List Char` (or `List Int` for raw key bytes),
the filesystem as an abstract record of stat/readdir functions, and
blocking input as explicit event parameters.
-/

/-- Modelled from the spec: the dispatcher result codes (the header defining
the `IndexRetval` enum is not among the sources).  The spec requires them to
be discrete and mutually distinct; the exact numeric values are immaterial.
`IR_UNKNOWN` is the "unhandled" sentinel. -/
def IR_UNKNOWN : Int := -6

/-- Result code: handler finished the dialog (close). -/
def IR_DONE : Int := -4

/-- Result code: operation recognised but not implemented here. -/
def IR_NOT_IMPL : Int := -3

/-- Result code: handled, but no action was taken. -/
def IR_NO_ACTION : Int := -2

/-- Result code: handled with an error. -/
def IR_ERROR : Int := -1

/-- Result code: handled successfully. -/
def IR_SUCCESS : Int := 0

/-- Modelled from the spec: opcode constants from the missing opcodes header.
`OP_NULL` is the null operation, `OP_MAX` the largest normal operation code;
synthetic dialog codes start at `OP_MAX + 1` so they cannot collide. -/
def OP_NULL : Int := 0

/-- Modelled from the spec: one past the largest normal operation code. -/
def OP_MAX : Int := 1000

/-- Movement opcode (value arbitrary but distinct from the others). -/
def OP_NEXT_ENTRY : Int := 1

/-- Movement opcode. -/
def OP_PREV_ENTRY : Int := 2

/-- Movement opcode. -/
def OP_CURRENT_TOP : Int := 3

/-- Movement opcode. -/
def OP_FIRST_ENTRY : Int := 4

/-- Movement opcode. -/
def OP_CURRENT_BOTTOM : Int := 5

/-- Movement opcode. -/
def OP_LAST_ENTRY : Int := 6

/-- Movement opcode. -/
def OP_CURRENT_MIDDLE : Int := 7

/-- Movement opcode. -/
def OP_NEXT_LINE : Int := 8

/-- Movement opcode. -/
def OP_PREV_LINE : Int := 9

/-- Movement opcode. -/
def OP_TOP_PAGE : Int := 10

/-- Movement opcode. -/
def OP_BOTTOM_PAGE : Int := 11

/-- Movement opcode. -/
def OP_MIDDLE_PAGE : Int := 12

/-- Exit opcode. -/
def OP_EXIT : Int := 13

/-- A key event as returned by `mutt_getch`: a raw key byte `ch` and an
optional pre-resolved operation `op` (src/menu/functions.c line 47). -/
structure KeyEvent where
  ch : Int
  op : Int
deriving DecidableEq, Repr

/-- Index of the first occurrence of `c` in the list, the semantics of the
C library `strchr` restricted to the characters before the terminator
(`p - menu->keys` in src/menu/functions.c line 65). -/
def strchrIdx (c : Int) : List Int → Option Nat
  | [] => none
  | x :: xs => if x = c then some 0 else (strchrIdx c xs).map (· + 1)

/-- Outcome of `menu_dialog_dokey`: return 0 with `*ip` set (event consumed
for the menu), or return -1 after pushing an event back onto the input
queue (not consumed). -/
inductive DokeyResult where
  | consumed (ip : Int) : DokeyResult
  | notConsumed (pushback : KeyEvent) : DokeyResult
deriving DecidableEq, Repr

/-- Embedding of `menu_dialog_dokey` (src/menu/functions.c lines 45-76 and
the identical static copy in src/conn/dlg_verifycert.c lines 82-113).
The getch-until-not-timeout loop is external blocking input; `ev` is the
first non-timeout event it yields. -/
def menu_dialog_dokey (keys : List Int) (ev : KeyEvent) : DokeyResult :=
  if ev.ch < 0 then
    .consumed (-1)
  else if ev.ch ≠ 0 then
    match strchrIdx ev.ch keys with
    | some i => .consumed (OP_MAX + ((i : Int) + 1))
    | none =>
      if ev.op = OP_NULL then .notConsumed ⟨ev.ch, OP_NULL⟩
      else .notConsumed ⟨0, ev.op⟩
  else
    if ev.op = OP_NULL then .notConsumed ⟨ev.ch, OP_NULL⟩
    else .notConsumed ⟨0, ev.op⟩

/-- Embedding of `menu_dialog_translate_op` (src/menu/functions.c
lines 83-102): convert menubar movement to scrolling. -/
def menu_dialog_translate_op (i : Int) : Int :=
  if i = OP_NEXT_ENTRY then OP_NEXT_LINE
  else if i = OP_PREV_ENTRY then OP_PREV_LINE
  else if i = OP_CURRENT_TOP then OP_TOP_PAGE
  else if i = OP_FIRST_ENTRY then OP_TOP_PAGE
  else if i = OP_CURRENT_BOTTOM then OP_BOTTOM_PAGE
  else if i = OP_LAST_ENTRY then OP_BOTTOM_PAGE
  else if i = OP_CURRENT_MIDDLE then OP_MIDDLE_PAGE
  else i

/-- The navigation state of a `Menu` that `menu_jump` touches: the current
index and the entry count. -/
structure Menu where
  current : Int
  max : Int
deriving DecidableEq, Repr

/-- Modelled from the spec: `menu_set_index` (the menu movement core is not
among the sources).  Per spec section 4.3 every movement clamps the
resulting index to the interval from 0 to max-1, and all movement is a
no-op when max is 0. -/
def menu_set_index (m : Menu) (i : Int) : Menu :=
  if m.max ≤ 0 then m else { m with current := max 0 (min i (m.max - 1)) }

/-- Is `c` a decimal digit? -/
def isDigitCh (c : Char) : Bool := '0' ≤ c && c ≤ '9'

/-- Accumulate the value of a digit string; fails on any non-digit. -/
def digitsVal (acc : Int) : List Char → Option Int
  | [] => some acc
  | c :: cs =>
    if isDigitCh c then digitsVal (10 * acc + ((c.toNat : Int) - ('0'.toNat : Int))) cs
    else none

/-- Modelled from the spec: `mutt_str_atoi_full` (string utilities are not
among the sources).  The jump text "parses as an integer n" exactly when it
is an optional minus sign followed by at least one digit and nothing else. -/
def mutt_str_atoi_full (s : List Char) : Option Int :=
  match s with
  | [] => none
  | '-' :: rest => if rest = [] then none else (digitsVal 0 rest).map (fun n => -n)
  | _ => digitsVal 0 s

/-- What `menu_jump` did: reported "No entries", silently did nothing
(prompt aborted or left empty), jumped, or reported "Invalid index
number". -/
inductive JumpOutcome where
  | errorNoEntries : JumpOutcome
  | noInput : JumpOutcome
  | jumped : JumpOutcome
  | errorInvalid : JumpOutcome
deriving DecidableEq, Repr

/-- Embedding of `menu_jump` (src/menu/functions.c lines 110-137).  The
prompt is external blocking input: `input` is `none` when
`mutt_buffer_get_field` returned nonzero (aborted), otherwise the entered
text. -/
def menu_jump (m : Menu) (input : Option (List Char)) : Menu × JumpOutcome :=
  if m.max = 0 then (m, .errorNoEntries)
  else
    match input with
    | none => (m, .noInput)
    | some s =>
      if s = [] then (m, .noInput)
      else
        match mutt_str_atoi_full s with
        | some n =>
          if 0 < n ∧ n < m.max + 1 then (menu_set_index m (n - 1), .jumped)
          else (m, .errorInvalid)
        | none => (m, .errorInvalid)

/-- File metadata as far as the browser reads it from `struct stat`:
the file-kind predicates `S_ISDIR` / `S_ISLNK` / `S_ISREG` applied to
`st_mode`, and `st_size`. -/
structure Stat where
  isDir : Bool
  isLnk : Bool
  isReg : Bool
  size : Int
deriving DecidableEq, Repr

/-- Result of a `stat` call: success, failure with `errno == ENOENT`, or
failure with any other error code. -/
inductive StatResult where
  | ok (st : Stat) : StatResult
  | enoent : StatResult
  | otherErr : StatResult
deriving DecidableEq, Repr

/-- The filesystem, abstracted to the operations the browser performs:
`stat`, `lstat`, `opendir` and `readdir` (which yields entry names). -/
structure Fsys where
  stat : List Char → StatResult
  lstat : List Char → Option Stat
  opendirOk : List Char → Bool
  readdir : List Char → List (List Char)

/-- Embedding of `mutt_buffer_concat_path`: join a folder and a file name
with a slash. -/
def concatPath (folder name : List Char) : List Char :=
  folder ++ '/' :: name

/-- Embedding of `link_is_dir` (src/browser/browser.c lines 174-188): does
the symlink `path` inside `folder` point to a directory? -/
def link_is_dir (fs : Fsys) (folder path : List Char) : Bool :=
  match fs.stat (concatPath folder path) with
  | .ok st => st.isDir
  | _ => false

/-- One browser row, as far as `examine_directory` and `file_tag` build and
read it: the entry name, its file kind bits, the reported size, and the
tagged flag. -/
structure FolderFile where
  name : List Char
  isDir : Bool
  isLnk : Bool
  isReg : Bool
  size : Int
  tagged : Bool
deriving DecidableEq, Repr

/-- Bool to Int, for the `ff->tagged - ot` arithmetic in `file_tag`. -/
def boolToInt (b : Bool) : Int := if b then 1 else 0

/-- Embedding of `file_tag` (src/browser/browser.c lines 981-996): refuse
directories and directory symlinks, otherwise toggle (or set, for
`act >= 0`) the tagged flag and return the change in tag count.  The last
component records whether the error message was shown. -/
def file_tag (fs : Fsys) (lastDir : List Char) (ff : FolderFile) (act : Int) :
    FolderFile × Int × Bool :=
  if ff.isDir || (ff.isLnk && link_is_dir fs lastDir ff.name) then
    (ff, 0, true)
  else
    let newTag : Bool := if 0 ≤ act then decide (act ≠ 0) else !ff.tagged
    ({ ff with tagged := newTag }, boolToInt newTag - boolToInt ff.tagged, false)

theorem strchrIdx_first {c : Int} {l : List Int} {i : Nat}
    (h : strchrIdx c l = some i) :
    l.get? i = some c ∧ ∀ j, j < i → l.get? j ≠ some c := by
  induction l generalizing i with
  | nil => simp [strchrIdx] at h
  | cons x xs ih =>
    by_cases hx : x = c
    · simp [strchrIdx, hx] at h
      subst h
      subst hx
      exact ⟨rfl, by omega⟩
    · simp only [strchrIdx, if_neg hx, Option.map_eq_some'] at h
      obtain ⟨i0, hi0, hadd⟩ := h
      obtain ⟨hget, hfirst⟩ := ih hi0
      subst hadd
      refine ⟨by simpa using hget, ?_⟩
      intro j hj
      match j with
      | 0 => simpa using hx
      | j + 1 =>
        have : j < i0 := by omega
        simpa using hfirst j this

theorem strchrIdx_eq_none {c : Int} {l : List Int} (h : c ∉ l) :
    strchrIdx c l = none := by
  induction l with
  | nil => rfl
  | cons x xs ih =>
    simp only [List.mem_cons, not_or] at h
    have hx : ¬ x = c := fun hh => h.1 hh.symm
    simp [strchrIdx, hx, ih h.2]

/-- C3: with a real key pressed (`ch > 0`), `menu_dialog_dokey` consumes the
event and yields the synthetic code `OP_MAX + i` exactly when the key is
the i-th character (1-based, first occurrence, case-sensitive by integer
equality) of the dialog's keys string; any key not in the keys string is
pushed back (the raw key, or its pre-resolved operation) and the function
reports "not consumed". -/
theorem menu_dialog_dokey_spec (keys : List Int) (ev : KeyEvent)
    (hpos : 0 < ev.ch) :
    (∀ i, strchrIdx ev.ch keys = some i →
       menu_dialog_dokey keys ev = .consumed (OP_MAX + ((i : Int) + 1)) ∧
       keys.get? i = some ev.ch ∧ ∀ j, j < i → keys.get? j ≠ some ev.ch)
    ∧ (ev.ch ∉ keys →
       menu_dialog_dokey keys ev =
         (if ev.op = OP_NULL then .notConsumed ⟨ev.ch, OP_NULL⟩
          else .notConsumed ⟨0, ev.op⟩)) := by
  have h1 : ¬ ev.ch < 0 := by omega
  have h2 : ev.ch ≠ 0 := by omega
  constructor
  · intro i hi
    obtain ⟨hget, hfirst⟩ := strchrIdx_first hi
    refine ⟨?_, hget, hfirst⟩
    simp only [menu_dialog_dokey, if_neg h1, if_pos h2, hi]
  · intro hmem
    have hn := strchrIdx_eq_none hmem
    simp only [menu_dialog_dokey, if_neg h1, if_pos h2, hn]

theorem menu_dialog_dokey_spec_witness :
    menu_dialog_dokey [114, 111, 97, 115] ⟨111, OP_NULL⟩ =
      .consumed (OP_MAX + ((1 : Int) + 1)) ∧
    menu_dialog_dokey [114, 111, 97, 115] ⟨120, OP_NULL⟩ =
      .notConsumed ⟨120, OP_NULL⟩ := by
  constructor
  · exact ((menu_dialog_dokey_spec [114, 111, 97, 115] ⟨111, OP_NULL⟩
      (by decide)).1 1 (by decide)).1
  · have h := (menu_dialog_dokey_spec [114, 111, 97, 115] ⟨120, OP_NULL⟩
      (by decide)).2 (by decide)
    simpa using h

/-- C4: `menu_jump` moves the current index to n-1 exactly when the entered
text parses as an integer n with 1 <= n <= max; non-numeric or out-of-range
text is reported as an error with the menu unchanged; with max = 0 it
reports "No entries" with a result independent of any input (it returns
before prompting). -/
theorem menu_jump_spec (m : Menu) (input : Option (List Char)) :
    (m.max = 0 → ∀ input2, menu_jump m input = (m, .errorNoEntries) ∧
       menu_jump m input = menu_jump m input2)
    ∧ (∀ s n, input = some s → mutt_str_atoi_full s = some n → 1 ≤ n → n ≤ m.max →
       menu_jump m input = (menu_set_index m (n - 1), .jumped) ∧
       (menu_set_index m (n - 1)).current = n - 1 ∧
       (menu_set_index m (n - 1)).max = m.max)
    ∧ (∀ s, input = some s → s ≠ [] →
       (mutt_str_atoi_full s = none ∨
         (∀ n, mutt_str_atoi_full s = some n → n < 1 ∨ m.max < n)) →
       m.max ≠ 0 →
       menu_jump m input = (m, .errorInvalid))
    ∧ (∀ m2 o, menu_jump m input = (m2, o) → o = .jumped →
       ∃ s n, input = some s ∧ mutt_str_atoi_full s = some n ∧ 1 ≤ n ∧ n ≤ m.max ∧
         m2.current = n - 1 ∧ m2.max = m.max) := by
  refine ⟨?_, ?_, ?_, ?_⟩
  · intro h0 input2
    simp [menu_jump, h0]
  · intro s n hin hparse h1 hmax
    subst hin
    have hmax0 : m.max ≠ 0 := by omega
    have hs : s ≠ [] := by
      intro he
      subst he
      simp [mutt_str_atoi_full] at hparse
    refine ⟨?_, ?_, ?_⟩
    · simp [menu_jump, hmax0, hs, hparse, (by omega : 0 < n ∧ n < m.max + 1)]
    · simp only [menu_set_index, if_neg (by omega : ¬ m.max ≤ 0)]
      show max 0 (min (n - 1) (m.max - 1)) = n - 1
      omega
    · simp only [menu_set_index, if_neg (by omega : ¬ m.max ≤ 0)]
  · intro s hin hs hbad hmax0
    subst hin
    cases hp : mutt_str_atoi_full s with
    | none => simp [menu_jump, hmax0, hs, hp]
    | some n =>
      have hr : n < 1 ∨ m.max < n := by
        rcases hbad with hnone | hrange
        · rw [hp] at hnone
          exact absurd hnone (by simp)
        · exact hrange n hp
      simp only [menu_jump, if_neg hmax0, if_neg hs, hp,
        if_neg (by omega : ¬ (0 < n ∧ n < m.max + 1))]
  · intro m2 o heq hjump
    subst hjump
    by_cases hmax0 : m.max = 0
    · simp [menu_jump, hmax0] at heq
    rcases input with _ | s
    · simp [menu_jump, hmax0] at heq
    by_cases hs : s = []
    · simp [menu_jump, hmax0, hs] at heq
    cases hp : mutt_str_atoi_full s with
    | none => simp [menu_jump, hmax0, hs, hp] at heq
    | some n =>
      by_cases hrange : 0 < n ∧ n < m.max + 1
      · simp only [menu_jump, if_neg hmax0, if_neg hs, hp, if_pos hrange,
          Prod.mk.injEq] at heq
        refine ⟨s, n, rfl, hp, by omega, by omega, ?_, ?_⟩
        · rw [← heq.1]
          simp only [menu_set_index, if_neg (by omega : ¬ m.max ≤ 0)]
          show max 0 (min (n - 1) (m.max - 1)) = n - 1
          omega
        · rw [← heq.1]
          simp only [menu_set_index, if_neg (by omega : ¬ m.max ≤ 0)]
      · simp [menu_jump, hmax0, hs, hp, hrange] at heq

theorem menu_jump_spec_witness :
    menu_jump ⟨3, 10⟩ (some ['7']) = (⟨6, 10⟩, .jumped) ∧
    menu_jump ⟨3, 10⟩ (some ['0']) = (⟨3, 10⟩, .errorInvalid) ∧
    menu_jump ⟨3, 10⟩ (some ['-', '1']) = (⟨3, 10⟩, .errorInvalid) ∧
    menu_jump ⟨3, 10⟩ (some ['1', '1']) = (⟨3, 10⟩, .errorInvalid) ∧
    menu_jump ⟨3, 0⟩ (some ['7']) = (⟨3, 0⟩, .errorNoEntries) := by
  refine ⟨?_, ?_, ?_, ?_, ?_⟩
  · have h := ((menu_jump_spec ⟨3, 10⟩ (some ['7'])).2.1 ['7'] 7 rfl (by decide)
      (by decide) (by decide)).1
    rw [h]
    rfl
  · exact (menu_jump_spec ⟨3, 10⟩ (some ['0'])).2.2.1 ['0'] rfl (by decide)
      (Or.inr (by decide)) (by decide)
  · exact (menu_jump_spec ⟨3, 10⟩ (some ['-', '1'])).2.2.1 ['-', '1'] rfl (by decide)
      (Or.inr (by decide)) (by decide)
  · exact (menu_jump_spec ⟨3, 10⟩ (some ['1', '1'])).2.2.1 ['1', '1'] rfl (by decide)
      (Or.inr (by decide)) (by decide)
  · exact ((menu_jump_spec ⟨3, 0⟩ (some ['7'])).1 rfl (some ['7'])).1

/-- C9: `file_tag` refuses to tag a directory or a symlink that resolves to
a directory (error reported, entry unchanged, tag-count change 0); on any
other entry it toggles the tagged flag (for `act < 0`) or sets it to the
requested value (for `act >= 0`), leaving every other field unchanged, and
returns the change in tag count. -/
theorem file_tag_spec (fs : Fsys) (d : List Char) (ff : FolderFile) (act : Int) :
    ((ff.isDir = true ∨ (ff.isLnk = true ∧ link_is_dir fs d ff.name = true)) →
       file_tag fs d ff act = (ff, 0, true))
    ∧ (¬ (ff.isDir = true ∨ (ff.isLnk = true ∧ link_is_dir fs d ff.name = true)) →
       ∃ ff2 delta, file_tag fs d ff act = (ff2, delta, false) ∧
         ff2.name = ff.name ∧ ff2.isDir = ff.isDir ∧ ff2.isLnk = ff.isLnk ∧
         ff2.isReg = ff.isReg ∧ ff2.size = ff.size ∧
         (act < 0 → ff2.tagged = !ff.tagged) ∧
         (0 ≤ act → (ff2.tagged = true ↔ act ≠ 0)) ∧
         delta = boolToInt ff2.tagged - boolToInt ff.tagged) := by
  constructor
  · intro hgate
    have hb : (ff.isDir || (ff.isLnk && link_is_dir fs d ff.name)) = true := by
      rcases hgate with h | ⟨h1, h2⟩
      · simp [h]
      · simp [h1, h2]
    simp [file_tag, hb]
  · intro hgate
    have hb : (ff.isDir || (ff.isLnk && link_is_dir fs d ff.name)) = false := by
      rcases hd : ff.isDir with _ | _
      · rcases hl : ff.isLnk with _ | _
        · simp
        · rcases hld : link_is_dir fs d ff.name with _ | _
          · simp [hld]
          · exact absurd (Or.inr ⟨hl, hld⟩) hgate
      · exact absurd (Or.inl hd) hgate
    refine ⟨{ ff with tagged := if 0 ≤ act then decide (act ≠ 0) else !ff.tagged },
      boolToInt (if 0 ≤ act then decide (act ≠ 0) else !ff.tagged) - boolToInt ff.tagged,
      ?_, rfl, rfl, rfl, rfl, rfl, ?_, ?_, rfl⟩
    · simp [file_tag, hb]
    · intro hneg
      simp [if_neg (by omega : ¬ 0 ≤ act)]
    · intro hpos
      simp [if_pos hpos]

theorem file_tag_spec_witness :
    (file_tag ⟨fun _ => .enoent, fun _ => none, fun _ => false, fun _ => []⟩
       ['/'] ⟨['s'], true, false, false, 0, false⟩ (-1) =
       (⟨['s'], true, false, false, 0, false⟩, 0, true))
    ∧ ∃ ff2 delta,
       file_tag ⟨fun _ => .enoent, fun _ => none, fun _ => false, fun _ => []⟩
         ['/'] ⟨['a'], false, false, true, 5, false⟩ (-1) = (ff2, delta, false) ∧
       ff2.tagged = true ∧ delta = 1 := by
  constructor
  · exact (file_tag_spec ⟨fun _ => .enoent, fun _ => none, fun _ => false, fun _ => []⟩
      ['/'] ⟨['s'], true, false, false, 0, false⟩ (-1)).1 (Or.inl rfl)
  · obtain ⟨ff2, delta, heq, -, -, -, -, -, htog, -, hdelta⟩ :=
      (file_tag_spec ⟨fun _ => .enoent, fun _ => none, fun _ => false, fun _ => []⟩
        ['/'] ⟨['a'], false, false, true, 5, false⟩ (-1)).2 (by simp [link_is_dir])
    refine ⟨ff2, delta, heq, ?_, ?_⟩
    · simpa using htog (by omega)
    · rw [hdelta, htog (by omega)]
      rfl

/-- The state of the certificate verification dialog that the event loop of
`dlg_verify_certificate` can touch: the status-bar title and the local
variable `rc` that would be returned after the loop. -/
structure VerifyState where
  title : String
  rc : Int
deriving DecidableEq, Repr

/-- Embedding of one iteration of the event loop of
`dlg_verify_certificate` (src/conn/dlg_verifycert.c lines 219-259).
Inputs of the iteration: `op0` is what `km_dokey` returned, `ev` the key
event that `menu_dialog_dokey` read, `menuDisp` the result of
`menu_function_dispatcher` (external: src/menu dispatch plus the movement
core) on the translated operation.  When `menu_dialog_dokey` consumes the
event the iteration continues at once and `rc` keeps its value; otherwise
the persistent local `rc` is reassigned with the dispatcher's result
(line 233), the iteration continues on `IR_SUCCESS`, and the switch on the
choice operations only rewrites the status-bar title (its `rc = ...`
assignments are commented out in the source).  Every branch ends the
iteration; the loop condition is the constant `true`. -/
def verifyCertStep (keys : List Int) (menuDisp : Int → Int) (op0 : Int)
    (ev : KeyEvent) (st : VerifyState) : VerifyState :=
  match menu_dialog_dokey keys ev with
  | .consumed _ => st
  | .notConsumed _ =>
    let op := menu_dialog_translate_op op0
    let rc := menuDisp op
    let st2 := { st with rc := rc }
    if rc = IR_SUCCESS then st2
    else if op = -1 ∨ op = OP_EXIT ∨ op = OP_MAX + 1 then
      { st2 with title := "ABORT/QUIT/REJECT" }
    else if op = OP_MAX + 2 then { st2 with title := "ONCE" }
    else if op = OP_MAX + 3 then { st2 with title := "ALWAYS/SKIP" }
    else if op = OP_MAX + 4 then { st2 with title := "SKIP" }
    else st2

/-- Embedding of the `do ... while (true)` event loop of
`dlg_verify_certificate`: run up to `fuel` iterations feeding the two
input streams (`kmStream` for `km_dokey`, `evStream` for the getch inside
`menu_dialog_dokey`); `some rc` would mean the loop finished and the
function is about to return `rc`, `none` means the loop is still running
when the fuel runs out. -/
def dlgVerifyCertLoop (keys : List Int) (menuDisp : Int → Int)
    (kmStream : Nat → Int) (evStream : Nat → KeyEvent) :
    Nat → Nat → VerifyState → Option Int
  | 0, _, _ => none
  | fuel + 1, i, st =>
    dlgVerifyCertLoop keys menuDisp kmStream evStream fuel (i + 1)
      (verifyCertStep keys menuDisp (kmStream i) (evStream i) st)

/-- C10: the event loop of `dlg_verify_certificate` never terminates: for
every input history and every number of iterations the loop has produced
no return value (its condition is the constant `true` and no branch breaks
out of it), so the function never returns a verification result to its
caller.  And choosing reject, accept-once, accept-always, skip, exit or
abort only rewrites the status-bar title: after any iteration `rc` is
exactly what the `menu_function_dispatcher` call assigned (or unchanged
when the dialog key was consumed) — no switch branch writes the choice's
result code into `rc`. -/
theorem dlg_verify_certificate_never_returns (keys : List Int)
    (menuDisp : Int → Int) (kmStream : Nat → Int) (evStream : Nat → KeyEvent) :
    (∀ fuel i st, dlgVerifyCertLoop keys menuDisp kmStream evStream fuel i st = none)
    ∧ (∀ op0 ev st,
        (verifyCertStep keys menuDisp op0 ev st).rc =
          match menu_dialog_dokey keys ev with
          | .consumed _ => st.rc
          | .notConsumed _ => menuDisp (menu_dialog_translate_op op0)) := by
  constructor
  · intro fuel
    induction fuel with
    | zero => intro i st; rfl
    | succ n ih => intro i st; exact ih (i + 1) _
  · intro op0 ev st
    simp only [verifyCertStep]
    rcases menu_dialog_dokey keys ev with ip | pb
    · rfl
    · simp only []
      split
      · rfl
      · split
        · rfl
        · split
          · rfl
          · split
            · rfl
            · split <;> rfl

/-- Index of the last occurrence of `c` in the list, the semantics of the
C library `strrchr`. -/
def lastIdxOf (c : Char) : List Char → Option Nat
  | [] => none
  | x :: xs =>
    match lastIdxOf c xs with
    | some i => some (i + 1)
    | none => if x = c then some 0 else none

/-- Position of `strrchr(d + 1, '/')` expressed as an absolute index into
`d`: the last slash strictly after the first character. -/
def lastSlashFrom1 (d : List Char) : Option Nat :=
  (lastIdxOf '/' (d.drop 1)).map (· + 1)

/-- Embedding of the `".."` branch of `op_generic_select_entry`
(src/browser/functions.c lines 600-627): the update applied to `LastDir`
when the highlighted entry is named "..". -/
def lastdir_dotdot (d : List Char) : List Char :=
  if 1 < d.length ∧ ['.', '.'].isSuffixOf d = true then
    d ++ ['/', '.', '.']
  else
    match (if 1 < d.length then lastSlashFrom1 d else none) with
    | some i => d.take i
    | none =>
      if d.head? = some '/' then ['/']
      else d ++ ['/', '.', '.']

/-- Join path segments with slashes (no leading slash). -/
def joinSegs : List (List Char) → List Char
  | [] => []
  | [s] => s
  | s :: rest => s ++ '/' :: joinSegs rest

/-- An absolute path written as a leading slash followed by its segments. -/
def renderPath (segs : List (List Char)) : List Char :=
  '/' :: joinSegs segs

theorem lastIdxOf_eq_none {c : Char} {l : List Char} (h : c ∉ l) :
    lastIdxOf c l = none := by
  induction l with
  | nil => rfl
  | cons x xs ih =>
    simp only [List.mem_cons, not_or] at h
    have hx : ¬ x = c := fun hh => h.1 hh.symm
    simp [lastIdxOf, ih h.2, hx]

theorem lastIdxOf_append_cons {b : List Char} (a : List Char) (h : '/' ∉ b) :
    lastIdxOf '/' (a ++ '/' :: b) = some a.length := by
  induction a with
  | nil => simp [lastIdxOf, lastIdxOf_eq_none h]
  | cons x xs ih => simp [lastIdxOf, ih]

theorem joinSegs_append_last (init : List (List Char)) (l : List Char)
    (h : init ≠ []) :
    joinSegs (init ++ [l]) = joinSegs init ++ '/' :: l := by
  induction init with
  | nil => exact absurd rfl h
  | cons s rest ih =>
    cases rest with
    | nil => rfl
    | cons s2 rest2 =>
      have hthis := ih (by simp)
      simp only [List.cons_append] at hthis
      show s ++ '/' :: joinSegs (s2 :: (rest2 ++ [l])) =
        (s ++ '/' :: joinSegs (s2 :: rest2)) ++ '/' :: l
      rw [hthis, List.append_assoc]
      rfl

theorem counterexample_dotdot_appends :
    lastdir_dotdot (renderPath [['a'], ['.', '.']]) =
      ['/', 'a', '/', '.', '.', '/', '.', '.'] ∧
    lastdir_dotdot (renderPath [['a'], ['.', '.']]) ≠ renderPath [['a']] := by
  constructor
  · rfl
  · decide

/-- C8 (amended): selecting the ".." entry from an absolute current
directory with at least two segments *that does not end in the two
characters ".."* strips the last path segment instead of appending "/..".
(The source appends "/.." whenever the current path already ends in "..";
see the counterexample at "/a/..".) -/
theorem lastdir_dotdot_strips (segs : List (List Char))
    (h2 : 2 ≤ segs.length)
    (hseg : ∀ s ∈ segs, s ≠ [] ∧ '/' ∉ s)
    (hnotdd : ['.', '.'].isSuffixOf (renderPath segs) = false) :
    lastdir_dotdot (renderPath segs) = renderPath segs.dropLast := by
  have hne : segs ≠ [] := by
    intro h
    subst h
    simp at h2
  have hsplit : segs.dropLast ++ [segs.getLast hne] = segs :=
    List.dropLast_append_getLast hne
  have hdlne : segs.dropLast ≠ [] := by
    intro h
    have := congrArg List.length hsplit
    rw [h] at this
    simp at this
    omega
  have hlast := hseg (segs.getLast hne) (List.getLast_mem hne)
  have hjoin : joinSegs segs = joinSegs segs.dropLast ++ '/' :: segs.getLast hne := by
    conv_lhs => rw [← hsplit]
    exact joinSegs_append_last _ _ hdlne
  have hlen : 1 < (renderPath segs).length := by
    simp [renderPath, hjoin]
  have hidx : lastSlashFrom1 (renderPath segs) =
      some ((joinSegs segs.dropLast).length + 1) := by
    simp only [lastSlashFrom1, renderPath, List.drop_one, List.tail_cons, hjoin]
    rw [lastIdxOf_append_cons _ hlast.2]
    rfl
  simp only [lastdir_dotdot]
  rw [if_neg (by simp [hnotdd])]
  rw [if_pos hlen, hidx]
  simp only [renderPath, hjoin]
  rw [List.take_succ_cons, List.take_left]

theorem lastdir_dotdot_strips_witness :
    lastdir_dotdot (renderPath [['a'], ['b'], ['c']]) = renderPath [['a'], ['b']] := by
  have h := lastdir_dotdot_strips [['a'], ['b'], ['c']] (by decide)
    (by decide) (by decide)
  simpa using h

theorem lastIdxOf_lt_length {c : Char} {l : List Char} {i : Nat}
    (h : lastIdxOf c l = some i) : i < l.length := by
  induction l generalizing i with
  | nil => simp [lastIdxOf] at h
  | cons x xs ih =>
    simp only [lastIdxOf] at h
    cases hx : lastIdxOf c xs with
    | some j =>
      rw [hx] at h
      simp only [Option.some.injEq] at h
      have := ih hx
      simp only [List.length_cons]
      omega
    | none =>
      rw [hx] at h
      by_cases hxc : x = c
      · simp only [if_pos hxc, Option.some.injEq] at h
        simp only [List.length_cons]
        omega
      · simp [if_neg hxc] at h

/-- Embedding of the `while (stat(d, &st) == -1)` recovery loop of
`examine_directory` (src/browser/browser.c lines 593-608): on ENOENT strip
the trailing path segment (truncate at the last slash, provided it is not
the leading character) and retry; fail on any other error, or when no
further segment can be stripped. -/
def resolveDir (fs : Fsys) (d : List Char) : Option (List Char × Stat) :=
  match fs.stat d with
  | .ok st => some (d, st)
  | .otherErr => none
  | .enoent =>
    match hidx : lastIdxOf '/' d with
    | none => none
    | some i => if 0 < i then resolveDir fs (d.take i) else none
termination_by d.length
decreasing_by
  simp only [List.length_take]
  have := lastIdxOf_lt_length hidx
  omega

theorem resolveDir_ok {fs : Fsys} {d : List Char} {st : Stat}
    (h : fs.stat d = .ok st) : resolveDir fs d = some (d, st) := by
  rw [resolveDir, h]

theorem resolveDir_otherErr {fs : Fsys} {d : List Char}
    (h : fs.stat d = .otherErr) : resolveDir fs d = none := by
  rw [resolveDir, h]

theorem resolveDir_enoent_step {fs : Fsys} {d : List Char} {i : Nat}
    (h : fs.stat d = .enoent) (hidx : lastIdxOf '/' d = some i) (hi : 0 < i) :
    resolveDir fs d = resolveDir fs (d.take i) := by
  conv_lhs => rw [resolveDir, h]
  split
  · rename_i heq
    exact absurd heq (by simp)
  · rename_i heq
    exact absurd heq (by simp)
  · split
    · rename_i heq2
      simp [hidx] at heq2
    · rename_i j heq2
      rw [hidx] at heq2
      injection heq2 with heq2
      subst heq2
      rw [if_pos hi]

theorem resolveDir_enoent_stuck {fs : Fsys} {d : List Char}
    (h : fs.stat d = .enoent)
    (hidx : lastIdxOf '/' d = none ∨ lastIdxOf '/' d = some 0) :
    resolveDir fs d = none := by
  conv_lhs => rw [resolveDir, h]
  split
  · rename_i heq
    exact absurd heq (by simp)
  · rename_i heq
    exact absurd heq (by simp)
  · split
    · rfl
    · rename_i j heq2
      rcases hidx with h0 | h0 <;> rw [h0] at heq2
      · exact absurd heq2 (by simp)
      · injection heq2 with heq2
        subst heq2
        rw [if_neg (by omega)]

/-- Embedding of the body of the `readdir` loop of `examine_directory`
(src/browser/browser.c lines 630-667) for one directory entry: skip ".",
apply the name-prefix filter and the configured mask, `lstat` the entry,
zero the size of directories and symlinks, skip entries that are neither
regular files nor directories nor symlinks, and run the hidden-mailbox
filter of `browser_add_folder` (src/browser/browser.c line 489; the
matched open mailbox, if any, is `mboxHidden` applied to the full path,
yielding its `MB_HIDDEN` flag). -/
def scan_one (fs : Fsys) (mask : List Char → Bool) (pfx : List Char)
    (menuPresent isMailboxList : Bool) (mboxHidden : List Char → Option Bool)
    (d name : List Char) : Option FolderFile :=
  if name = ['.'] then none
  else if pfx ≠ [] ∧ ¬ (pfx.isPrefixOf name = true) then none
  else if ¬ mask name = true then none
  else
    match fs.lstat (concatPath d name) with
    | none => none
    | some st =>
      if !(st.isDir || st.isLnk) && !st.isReg then none
      else
        let st2 := if st.isDir || st.isLnk then { st with size := 0 } else st
        if (!menuPresent || isMailboxList) && (mboxHidden (concatPath d name)).getD false then
          none
        else some ⟨name, st2.isDir, st2.isLnk, st2.isReg, st2.size, false⟩

/-- The `readdir` loop of `examine_directory`: the entries added for the
given enumeration order (before `browser_sort`, which is external to the
sources and only permutes the list). -/
def scanEntries (fs : Fsys) (mask : List Char → Bool) (pfx : List Char)
    (menuPresent isMailboxList : Bool) (mboxHidden : List Char → Option Bool)
    (d : List Char) : List (List Char) → List FolderFile
  | [] => []
  | name :: rest =>
    match scan_one fs mask pfx menuPresent isMailboxList mboxHidden d name with
    | some ff => ff :: scanEntries fs mask pfx menuPresent isMailboxList mboxHidden d rest
    | none => scanEntries fs mask pfx menuPresent isMailboxList mboxHidden d rest

/-- Embedding of `examine_directory` (src/browser/browser.c lines 559-677,
non-NNTP branch): resolve the path upward on ENOENT, fail (`-1`, here
`none`) if the resolved path is not a directory or cannot be opened,
otherwise return (`0`, here `some`) with the scanned entry list. -/
def examine_directory (fs : Fsys) (mask : List Char → Bool) (pfx : List Char)
    (menuPresent isMailboxList : Bool) (mboxHidden : List Char → Option Bool)
    (d : List Char) : Option (List FolderFile) :=
  match resolveDir fs d with
  | none => none
  | some (d2, st) =>
    if !st.isDir then none
    else if !fs.opendirOk d2 then none
    else some (scanEntries fs mask pfx menuPresent isMailboxList mboxHidden d2 (fs.readdir d2))

theorem scan_one_name {fs : Fsys} {mask : List Char → Bool} {pfx : List Char}
    {mp iml : Bool} {mb : List Char → Option Bool} {d name : List Char}
    {ff : FolderFile} (h : scan_one fs mask pfx mp iml mb d name = some ff) :
    ff.name = name ∧ ((ff.isDir = true ∨ ff.isLnk = true) → ff.size = 0) := by
  simp only [scan_one] at h
  split at h
  · cases h
  split at h
  · cases h
  split at h
  · cases h
  split at h
  · cases h
  rename_i st heq
  split at h
  · cases h
  split at h
  · cases h
  injection h with h
  subst h
  constructor
  · rfl
  · intro hkind
    rcases hd : st.isDir with _ | _ <;> rcases hl : st.isLnk with _ | _ <;>
      simp [hd, hl] at hkind ⊢

theorem scan_one_isSome_iff (fs : Fsys) (mask : List Char → Bool)
    (pfx : List Char) (mb : List Char → Option Bool) (d name : List Char) :
    (∃ ff, scan_one fs mask pfx true false mb d name = some ff) ↔
      (name ≠ ['.'] ∧ (pfx = [] ∨ pfx.isPrefixOf name = true) ∧ mask name = true ∧
        ∃ st, fs.lstat (concatPath d name) = some st ∧
          (st.isReg = true ∨ st.isDir = true ∨ st.isLnk = true)) := by
  by_cases h1 : name = ['.']
  · simp [scan_one, h1]
  by_cases hp : pfx ≠ [] ∧ pfx.isPrefixOf name = false
  · have hrhs : ¬ (pfx = [] ∨ pfx.isPrefixOf name = true) := by
      rintro (h0 | h0)
      · exact hp.1 h0
      · rw [hp.2] at h0
        cases h0
    simp [scan_one, h1, hp.1, hp.2, hrhs]
  have hpass : pfx = [] ∨ pfx.isPrefixOf name = true := by
    by_cases h0 : pfx = []
    · exact Or.inl h0
    · right
      cases hb : pfx.isPrefixOf name with
      | false => exact absurd ⟨h0, hb⟩ hp
      | true => rfl
  have hcond : ¬ (pfx ≠ [] ∧ ¬ pfx.isPrefixOf name = true) := by
    rintro ⟨hne, hnp⟩
    rcases hpass with h0 | h0
    · exact hne h0
    · exact hnp h0
  by_cases h3 : mask name = true
  · cases hst : fs.lstat (concatPath d name) with
    | none => simp [scan_one, h1, hcond, h3, hst]
    | some st =>
      obtain ⟨sd, sl, sr, sz⟩ := st
      cases sd <;> cases sl <;> cases sr <;>
        simp [scan_one, h1, hcond, h3, hst, hpass] <;> tauto
  · have h3' : mask name = false := by
      cases hb : mask name with
      | false => rfl
      | true => exact absurd hb h3
    simp [scan_one, h1, hcond, h3', h3]

theorem mem_scanEntries_iff (fs : Fsys) (mask : List Char → Bool)
    (pfx : List Char) (mp iml : Bool) (mb : List Char → Option Bool)
    (d : List Char) (names : List (List Char)) (e : FolderFile) :
    e ∈ scanEntries fs mask pfx mp iml mb d names ↔
      ∃ name, name ∈ names ∧ scan_one fs mask pfx mp iml mb d name = some e := by
  induction names with
  | nil => simp [scanEntries]
  | cons n rest ih =>
    simp only [scanEntries]
    cases hn : scan_one fs mask pfx mp iml mb d n with
    | some ff =>
      simp only [List.mem_cons, ih]
      constructor
      · intro h
        rcases h with h | ⟨nm, hmem, hsc⟩
        · exact ⟨n, Or.inl rfl, by rw [hn, h]⟩
        · exact ⟨nm, Or.inr hmem, hsc⟩
      · intro ⟨nm, hmem, hsc⟩
        rcases hmem with h | h
        · subst h
          rw [hn] at hsc
          injection hsc with hsc
          exact Or.inl hsc.symm
        · exact Or.inr ⟨nm, h, hsc⟩
    | none =>
      rw [ih]
      constructor
      · intro ⟨nm, hmem, hsc⟩
        exact ⟨nm, List.mem_cons_of_mem _ hmem, hsc⟩
      · intro ⟨nm, hmem, hsc⟩
        rcases List.mem_cons.mp hmem with h | h
        · subst h
          rw [hn] at hsc
          cases hsc
        · exact ⟨nm, h, hsc⟩

/-- C6: in a browser directory scan (menu present, not listing mailboxes)
an entry named `x` appears in the produced listing if and only if `x` was
enumerated by `readdir`, is not ".", passes the name-prefix filter (when a
non-empty one is given) and the configured mask pattern, its `lstat`
succeeds, and it is a regular file, a directory or a symlink; and every
produced directory or symlink entry has reported size zero. -/
theorem examine_directory_inclusion (fs : Fsys) (mask : List Char → Bool)
    (pfx : List Char) (mb : List Char → Option Bool) (d : List Char)
    (x : List Char) (st0 : Stat)
    (hstat : fs.stat d = .ok st0) (hdir : st0.isDir = true)
    (hop : fs.opendirOk d = true) :
    ∃ l, examine_directory fs mask pfx true false mb d = some l ∧
      ((∃ e ∈ l, e.name = x) ↔
        (x ∈ fs.readdir d ∧ x ≠ ['.'] ∧ (pfx = [] ∨ pfx.isPrefixOf x = true) ∧
          mask x = true ∧
          ∃ st, fs.lstat (concatPath d x) = some st ∧
            (st.isReg = true ∨ st.isDir = true ∨ st.isLnk = true))) ∧
      (∀ e ∈ l, (e.isDir = true ∨ e.isLnk = true) → e.size = 0) := by
  refine ⟨scanEntries fs mask pfx true false mb d (fs.readdir d), ?_, ?_, ?_⟩
  · simp [examine_directory, resolveDir_ok hstat, hdir, hop]
  · constructor
    · rintro ⟨e, hmem, hname⟩
      obtain ⟨nm, hnm, hsc⟩ := (mem_scanEntries_iff fs mask pfx true false mb d
        (fs.readdir d) e).mp hmem
      have heq := (scan_one_name hsc).1
      have hnx : nm = x := by rw [← hname, heq]
      subst hnx
      have hr := (scan_one_isSome_iff fs mask pfx mb d nm).mp ⟨e, hsc⟩
      exact ⟨hnm, hr.1, hr.2.1, hr.2.2.1, hr.2.2.2⟩
    · rintro ⟨hmem, hdot, hpfx, hmask, hst⟩
      obtain ⟨ff, hff⟩ := (scan_one_isSome_iff fs mask pfx mb d x).mpr
        ⟨hdot, hpfx, hmask, hst⟩
      exact ⟨ff, (mem_scanEntries_iff fs mask pfx true false mb d
        (fs.readdir d) ff).mpr ⟨x, hmem, hff⟩, (scan_one_name hff).1⟩
  · intro e hmem hkind
    obtain ⟨nm, hnm, hsc⟩ := (mem_scanEntries_iff fs mask pfx true false mb d
      (fs.readdir d) e).mp hmem
    exact (scan_one_name hsc).2 hkind

theorem examine_directory_inclusion_witness :
    ∃ l, examine_directory
        ⟨fun p => if p = ['/', 't'] then .ok ⟨true, false, false, 0⟩ else .enoent,
         fun p => if p = concatPath ['/', 't'] ['a'] then some ⟨false, false, true, 5⟩
           else if p = concatPath ['/', 't'] ['s'] then some ⟨true, false, false, 7⟩
           else none,
         fun _ => true,
         fun _ => [['.'], ['a'], ['s'], ['z']]⟩
        (fun _ => true) [] true false (fun _ => none) ['/', 't'] = some l ∧
      (∃ e ∈ l, e.name = ['a']) ∧ ¬ (∃ e ∈ l, e.name = ['.']) ∧
      ¬ (∃ e ∈ l, e.name = ['z']) ∧
      (∀ e ∈ l, (e.isDir = true ∨ e.isLnk = true) → e.size = 0) := by
  obtain ⟨l, hl, hiffa, hsz⟩ := examine_directory_inclusion
    ⟨fun p => if p = ['/', 't'] then .ok ⟨true, false, false, 0⟩ else .enoent,
     fun p => if p = concatPath ['/', 't'] ['a'] then some ⟨false, false, true, 5⟩
       else if p = concatPath ['/', 't'] ['s'] then some ⟨true, false, false, 7⟩
       else none,
     fun _ => true,
     fun _ => [['.'], ['a'], ['s'], ['z']]⟩
    (fun _ => true) [] (fun _ => none) ['/', 't'] ['a'] ⟨true, false, false, 0⟩
    (by decide) rfl rfl
  obtain ⟨l2, hl2, hiffdot, -⟩ := examine_directory_inclusion
    ⟨fun p => if p = ['/', 't'] then .ok ⟨true, false, false, 0⟩ else .enoent,
     fun p => if p = concatPath ['/', 't'] ['a'] then some ⟨false, false, true, 5⟩
       else if p = concatPath ['/', 't'] ['s'] then some ⟨true, false, false, 7⟩
       else none,
     fun _ => true,
     fun _ => [['.'], ['a'], ['s'], ['z']]⟩
    (fun _ => true) [] (fun _ => none) ['/', 't'] ['.'] ⟨true, false, false, 0⟩
    (by decide) rfl rfl
  obtain ⟨l3, hl3, hiffz, -⟩ := examine_directory_inclusion
    ⟨fun p => if p = ['/', 't'] then .ok ⟨true, false, false, 0⟩ else .enoent,
     fun p => if p = concatPath ['/', 't'] ['a'] then some ⟨false, false, true, 5⟩
       else if p = concatPath ['/', 't'] ['s'] then some ⟨true, false, false, 7⟩
       else none,
     fun _ => true,
     fun _ => [['.'], ['a'], ['s'], ['z']]⟩
    (fun _ => true) [] (fun _ => none) ['/', 't'] ['z'] ⟨true, false, false, 0⟩
    (by decide) rfl rfl
  rw [hl] at hl2 hl3
  injection hl2 with hl2
  injection hl3 with hl3
  subst hl2
  subst hl3
  refine ⟨l, hl, ?_, ?_, ?_, hsz⟩
  · exact hiffa.mpr ⟨by decide, by decide, Or.inl rfl, rfl,
      ⟨false, false, true, 5⟩, by decide, Or.inl rfl⟩
  · intro hcon
    exact (hiffdot.mp hcon).2.1 rfl
  · intro hcon
    obtain ⟨st, hstl, -⟩ := (hiffz.mp hcon).2.2.2.2
    have hz : (⟨fun p => if p = ['/', 't'] then .ok ⟨true, false, false, 0⟩ else .enoent,
       fun p => if p = concatPath ['/', 't'] ['a'] then some ⟨false, false, true, 5⟩
         else if p = concatPath ['/', 't'] ['s'] then some ⟨true, false, false, 7⟩
         else none,
       fun _ => true,
       fun _ => [['.'], ['a'], ['s'], ['z']]⟩ : Fsys).lstat
        (concatPath ['/', 't'] ['z']) = none := by decide
    rw [hz] at hstl
    cases hstl

/-- C5: the directory scan of `examine_directory`: (1) on an ENOENT stat
failure it strips the trailing path segment (truncating at the last slash,
when that slash is not the leading character) and scans the shortened path
instead, repeatedly, until an existing ancestor is found; (2) when the
resolved path exists but is not a directory it fails with the sentinel
result `none` (the C function returns -1); (3) an existing empty directory
succeeds with zero entries, a result distinct from the failure sentinel. -/
theorem examine_directory_error_spec (fs : Fsys) (mask : List Char → Bool)
    (pfx : List Char) (mb : List Char → Option Bool) (d : List Char) :
    (∀ i, fs.stat d = .enoent → lastIdxOf '/' d = some i → 0 < i →
       examine_directory fs mask pfx true false mb d =
         examine_directory fs mask pfx true false mb (d.take i))
    ∧ (∀ d2 st, resolveDir fs d = some (d2, st) → st.isDir = false →
       examine_directory fs mask pfx true false mb d = none)
    ∧ (∀ st, fs.stat d = .ok st → st.isDir = true → fs.opendirOk d = true →
       fs.readdir d = [] →
       examine_directory fs mask pfx true false mb d = some [] ∧
         (some [] : Option (List FolderFile)) ≠ none) := by
  refine ⟨?_, ?_, ?_⟩
  · intro i h hidx hi
    simp only [examine_directory, resolveDir_enoent_step h hidx hi]
  · intro d2 st hres hnd
    simp [examine_directory, hres, hnd]
  · intro st hstat hdir hop hrd
    refine ⟨?_, by simp⟩
    simp [examine_directory, resolveDir_ok hstat, hdir, hop, hrd, scanEntries]

theorem examine_directory_error_spec_witness :
    (examine_directory
        ⟨fun p => if p = ['/', 'a'] then .ok ⟨true, false, false, 0⟩
           else if p = ['/', 'a', '/', 'b'] then .ok ⟨false, false, true, 3⟩
           else .enoent,
         fun _ => none, fun _ => true, fun _ => []⟩
        (fun _ => true) [] true false (fun _ => none) ['/', 'a', '/', 'b', '/', 'c'] =
      examine_directory
        ⟨fun p => if p = ['/', 'a'] then .ok ⟨true, false, false, 0⟩
           else if p = ['/', 'a', '/', 'b'] then .ok ⟨false, false, true, 3⟩
           else .enoent,
         fun _ => none, fun _ => true, fun _ => []⟩
        (fun _ => true) [] true false (fun _ => none) ['/', 'a', '/', 'b'])
    ∧ examine_directory
        ⟨fun p => if p = ['/', 'a'] then .ok ⟨true, false, false, 0⟩
           else if p = ['/', 'a', '/', 'b'] then .ok ⟨false, false, true, 3⟩
           else .enoent,
         fun _ => none, fun _ => true, fun _ => []⟩
        (fun _ => true) [] true false (fun _ => none) ['/', 'a', '/', 'b'] = none
    ∧ examine_directory
        ⟨fun p => if p = ['/', 'a'] then .ok ⟨true, false, false, 0⟩
           else if p = ['/', 'a', '/', 'b'] then .ok ⟨false, false, true, 3⟩
           else .enoent,
         fun _ => none, fun _ => true, fun _ => []⟩
        (fun _ => true) [] true false (fun _ => none) ['/', 'a'] = some [] := by
  refine ⟨?_, ?_, ?_⟩
  · have h := (examine_directory_error_spec
      ⟨fun p => if p = ['/', 'a'] then .ok ⟨true, false, false, 0⟩
         else if p = ['/', 'a', '/', 'b'] then .ok ⟨false, false, true, 3⟩
         else .enoent,
       fun _ => none, fun _ => true, fun _ => []⟩
      (fun _ => true) [] (fun _ => none) ['/', 'a', '/', 'b', '/', 'c']).1 4
      (by decide) (by decide) (by decide)
    simpa using h
  · exact (examine_directory_error_spec
      ⟨fun p => if p = ['/', 'a'] then .ok ⟨true, false, false, 0⟩
         else if p = ['/', 'a', '/', 'b'] then .ok ⟨false, false, true, 3⟩
         else .enoent,
       fun _ => none, fun _ => true, fun _ => []⟩
      (fun _ => true) [] (fun _ => none) ['/', 'a', '/', 'b']).2.1
      ['/', 'a', '/', 'b'] ⟨false, false, true, 3⟩
      (resolveDir_ok (by decide)) rfl
  · exact ((examine_directory_error_spec
      ⟨fun p => if p = ['/', 'a'] then .ok ⟨true, false, false, 0⟩
         else if p = ['/', 'a', '/', 'b'] then .ok ⟨false, false, true, 3⟩
         else .enoent,
       fun _ => none, fun _ => true, fun _ => []⟩
      (fun _ => true) [] (fun _ => none) ['/', 'a']).2.2
      ⟨true, false, false, 0⟩ (by decide) rfl rfl rfl).1

/-- Result of `op_enter_mask`: the handler's return code, whether an error
message was shown, and the new entry list when the directory was
re-listed. -/
structure EnterMaskResult where
  rc : Int
  errorShown : Bool
  entries : Option (List FolderFile)
deriving DecidableEq, Repr

/-- Embedding of `op_enter_mask` (src/browser/functions.c lines 439-502,
non-IMAP state): prompt for a pattern (`input`; `none` when the prompt was
aborted), default a blank pattern to "." (match everything), set the
`mask` config variable (`setOk`; a failed set, e.g. a bad regex, shows the
error), re-list the directory with the new mask (`maskSem` interprets a
pattern as a matcher), and handle an empty re-listed result by showing
"No files match the file mask" and returning `IR_DONE` (the line is
marked `// QWQ break;` in the source).  The handler sets
`is_mailbox_list = false` before re-listing and passes a NULL prefix. -/
def op_enter_mask (fs : Fsys) (maskSem : List Char → List Char → Bool)
    (setOk : List Char → Bool) (mb : List Char → Option Bool)
    (lastDir : List Char) (input : Option (List Char)) : EnterMaskResult :=
  match input with
  | none => ⟨IR_NO_ACTION, false, none⟩
  | some s =>
    let pat := if s = [] then ['.'] else s
    if setOk pat = false then ⟨IR_DONE, true, none⟩
    else
      match examine_directory fs (maskSem pat) [] true false mb lastDir with
      | some l => if l = [] then ⟨IR_DONE, true, some l⟩ else ⟨IR_ERROR, false, some l⟩
      | none => ⟨IR_DONE, true, none⟩

/-- C7 (code evaluation at the failing input): when the re-listed result is
empty, `op_enter_mask` does report the error, but it returns `IR_DONE` —
the done/close result that makes the caller's loop in
`mutt_buffer_select_file` break and close the dialog — contradicting the
claim that the dialog stays open.  The second conjunct shows the blank
pattern defaulting to "." (the config set succeeds only for the pattern
".", and it is reached from blank input). -/
theorem op_enter_mask_empty_returns_done :
    op_enter_mask
      ⟨fun _ => .ok ⟨true, false, false, 0⟩, fun _ => none, fun _ => true, fun _ => []⟩
      (fun _ _ => true) (fun _ => true) (fun _ => none) ['/', 't'] (some ['x']) =
      ⟨IR_DONE, true, some []⟩
    ∧ op_enter_mask
      ⟨fun _ => .ok ⟨true, false, false, 0⟩, fun _ => none, fun _ => true, fun _ => []⟩
      (fun _ _ => true) (fun p => decide (p = ['.'])) (fun _ => none) ['/', 't']
      (some []) = ⟨IR_DONE, true, some []⟩
    ∧ IR_DONE ≠ IR_ERROR := by
  have h1 : resolveDir
      (⟨fun _ => .ok ⟨true, false, false, 0⟩, fun _ => none, fun _ => true,
        fun _ => []⟩ : Fsys) ['/', 't'] =
      some (['/', 't'], ⟨true, false, false, 0⟩) := resolveDir_ok rfl
  refine ⟨?_, ?_, by simp [IR_DONE, IR_ERROR]⟩
  · simp [op_enter_mask, examine_directory, h1, scanEntries]
  · simp [op_enter_mask, examine_directory, h1, scanEntries]

/-- The window tree of src/gui, in child/sibling form: a `node` is one
`MuttWindow` carrying its visibility flag (`state.visible`), its optional
dispatcher (`win->function`, embedded as a pure function from the
operation to the returned result code), the head of its owned child chain
(`TAILQ` of children, in order) and the next sibling; `leafEnd` ends a
sibling chain.  Handlers are embedded as pure functions: the dispatch core
itself performs no mutation. -/
inductive WTree where
  | leafEnd : WTree
  | node (visible : Bool) (handler : Option (Int → Int)) (child sibling : WTree) : WTree

/-- The i-th window of a sibling chain. -/
def nthWin : WTree → Nat → Option WTree
  | .leafEnd, _ => none
  | .node v h c s, 0 => some (.node v h c s)
  | .node _ _ _ s, n + 1 => nthWin s n

/-- A window inside a tree is addressed by the list of child indices from
the root; `visiblePath p w` states that the path is valid and that the
addressed window and every window on the way to it (its ancestors) are
visible. -/
def visiblePath : List Nat → WTree → Bool
  | _, .leafEnd => false
  | [], .node v _ _ _ => v
  | i :: p, .node v _ c _ =>
    v && (match nthWin c i with
          | none => false
          | some w2 => visiblePath p w2)

/-- The self-then-children step of `traverse_tree` (src/gui/global.c
lines 109-134) for one window, given the result of traversing its child
chain: an invisible window is skipped entirely; otherwise its own
dispatcher runs first (recorded in the trace as the empty relative path)
and, only if it returns `IR_UNKNOWN`, the children's result is used.  The
second component is the trace: the relative paths of every window whose
dispatcher was invoked, in invocation order. -/
def travNode (op : Int) (v : Bool) (h : Option (Int → Int))
    (kids : Int × List (List Nat)) : Int × List (List Nat) :=
  if v = false then (IR_UNKNOWN, [])
  else
    match h with
    | some f =>
      let rc := f op
      if rc ≠ IR_UNKNOWN then (rc, [[]])
      else (kids.1, [] :: kids.2)
    | none => kids

/-- The `TAILQ_FOREACH` loop of `traverse_tree` over a child chain whose
first element has index `i`: skip the `ignore` child (pointer comparison
becomes index comparison, since `ignore` is always the child the search
just came from), recursively traverse each other child (with no ignore),
and stop at the first one whose result is not `IR_UNKNOWN`. -/
def travForest (op : Int) (ig : Option Nat) : Nat → WTree → Int × List (List Nat)
  | _, .leafEnd => (IR_UNKNOWN, [])
  | i, .node v h c s =>
    if some i = ig then travForest op ig (i + 1) s
    else
      let r := travNode op v h (travForest op none 0 c)
      let r2 : Int × List (List Nat) := (r.1, r.2.map (fun q => i :: q))
      if r2.1 ≠ IR_UNKNOWN then r2
      else
        let rest := travForest op ig (i + 1) s
        (rest.1, r2.2 ++ rest.2)

/-- Embedding of `traverse_tree` (src/gui/global.c lines 109-134): descend
through a window's subtree, ignoring the `ig`-th child, pruning invisible
subtrees, returning the first non-`IR_UNKNOWN` handler result together
with the trace of invoked handlers (paths relative to this window). -/
def traverse_tree (op : Int) (ig : Option Nat) : WTree → Int × List (List Nat)
  | .leafEnd => (IR_UNKNOWN, [])
  | .node v h c _ => travNode op v h (travForest op ig 0 c)

/-- The climbing loop of `window_dispatch_function` (src/gui/global.c
lines 148-164), unrolled along the path from the root down to the start
window: the innermost call traverses the start window's subtree with no
ignore; each enclosing level traverses its window's subtree ignoring the
child branch just searched, and is consulted only if the inner search
returned `IR_UNKNOWN`.  Traces are rebased to root-relative paths. -/
def dispatchFrom (op : Int) : List Nat → WTree → Int × List (List Nat)
  | [], w => traverse_tree op none w
  | _ :: _, .leafEnd => (IR_UNKNOWN, [])
  | i :: p, .node v h c s =>
    match nthWin c i with
    | none => (IR_UNKNOWN, [])
    | some w2 =>
      let inner := dispatchFrom op p w2
      let innerTr := inner.2.map (fun q => i :: q)
      if inner.1 ≠ IR_UNKNOWN then (inner.1, innerTr)
      else
        let outer := traverse_tree op (some i) (.node v h c s)
        (outer.1, innerTr ++ outer.2)

/-- Modelled from the spec: `mutt_window_is_visible` (gui window utilities
are not among the sources).  Per spec section 4.1 a window in an invisible
subtree is excluded entirely, so visibility of a window means that it and
all its ancestors carry a true visibility flag. -/
def mutt_window_is_visible (p : List Nat) (w : WTree) : Bool :=
  visiblePath p w

/-- Embedding of `window_dispatch_function` (src/gui/global.c
lines 148-164): refuse invisible start windows, then climb from the start
window to the root, searching wider at each step and excluding the branch
just searched. -/
def window_dispatch_function (op : Int) (p : List Nat) (w : WTree) :
    Int × List (List Nat) :=
  if mutt_window_is_visible p w then dispatchFrom op p w
  else (IR_UNKNOWN, [])

/-- Size measure for strong induction over window trees. -/
def wsize : WTree → Nat
  | .leafEnd => 0
  | .node _ _ c s => 1 + wsize c + wsize s

theorem nthWin_wsize {c : WTree} {j : Nat} {w2 : WTree}
    (h : nthWin c j = some w2) : wsize w2 ≤ wsize c := by
  induction c generalizing j with
  | leafEnd => cases h
  | node v hh ch s ihc ihs =>
    cases j with
    | zero =>
      injection h with h
      subst h
      exact le_refl _
    | succ n =>
      have hs := ihs (j := n) h
      simp only [wsize]
      omega

theorem travNode_mem {op : Int} {v : Bool} {h : Option (Int → Int)}
    {kids : Int × List (List Nat)} {q : List Nat}
    (hq : q ∈ (travNode op v h kids).2) : q = [] ∨ q ∈ kids.2 := by
  simp only [travNode] at hq
  split at hq
  · simp at hq
  · split at hq
    · split at hq
      · simp at hq
        exact Or.inl hq
      · rcases List.mem_cons.mp hq with h0 | h0
        · exact Or.inl h0
        · exact Or.inr h0
    · exact Or.inr hq

theorem travForest_mem {op : Int} {ig : Option Nat} :
    ∀ (w : WTree) (i : Nat) (q : List Nat), q ∈ (travForest op ig i w).2 →
      ∃ j t w2, q = j :: t ∧ i ≤ j ∧ some j ≠ ig ∧ nthWin w (j - i) = some w2 ∧
        t ∈ (traverse_tree op none w2).2 := by
  intro w
  induction w with
  | leafEnd =>
    intro i q hq
    simp [travForest] at hq
  | node v h c s ihc ihs =>
    intro i q hq
    simp only [travForest] at hq
    by_cases hig : some i = ig
    · rw [if_pos hig] at hq
      obtain ⟨j, t, w2, hqe, hle, hne, hnth, hmem⟩ := ihs (i + 1) q hq
      refine ⟨j, t, w2, hqe, by omega, hne, ?_, hmem⟩
      have hji : j - i = (j - (i + 1)) + 1 := by omega
      rw [hji]
      exact hnth
    · rw [if_neg hig] at hq
      split at hq
      · simp only [List.mem_map] at hq
        obtain ⟨t, ht, hqe⟩ := hq
        refine ⟨i, t, .node v h c s, hqe.symm, le_refl _, hig, ?_, ?_⟩
        · rw [Nat.sub_self]
          rfl
        · exact ht
      · rcases List.mem_append.mp hq with h0 | h0
        · simp only [List.mem_map] at h0
          obtain ⟨t, ht, hqe⟩ := h0
          refine ⟨i, t, .node v h c s, hqe.symm, le_refl _, hig, ?_, ?_⟩
          · rw [Nat.sub_self]
            rfl
          · exact ht
        · obtain ⟨j, t, w2, hqe, hle, hne, hnth, hmem⟩ := ihs (i + 1) q h0
          refine ⟨j, t, w2, hqe, by omega, hne, ?_, hmem⟩
          have hji : j - i = (j - (i + 1)) + 1 := by omega
          rw [hji]
          exact hnth

theorem traverse_tree_mem_shape {op : Int} {ig : Option Nat} {w : WTree}
    {q : List Nat} (hq : q ∈ (traverse_tree op ig w).2) :
    q = [] ∨ ∃ j t, q = j :: t ∧ some j ≠ ig := by
  cases w with
  | leafEnd => simp [traverse_tree] at hq
  | node v h c s =>
    simp only [traverse_tree] at hq
    rcases travNode_mem hq with h0 | hk
    · exact Or.inl h0
    · obtain ⟨j, t, w2, hqe, -, hne, -, -⟩ := travForest_mem c 0 q hk
      exact Or.inr ⟨j, t, hqe, hne⟩

theorem trav_vis : ∀ (n : Nat) (w : WTree), wsize w ≤ n →
    ∀ (op : Int) (ig : Option Nat) (q : List Nat),
      q ∈ (traverse_tree op ig w).2 → visiblePath q w = true := by
  intro n
  induction n with
  | zero =>
    intro w hw op ig q hq
    cases w with
    | leafEnd => simp [traverse_tree] at hq
    | node v h c s => simp [wsize] at hw
  | succ n ih =>
    intro w hw op ig q hq
    cases w with
    | leafEnd => simp [traverse_tree] at hq
    | node v h c s =>
      by_cases hv : v = false
      · simp [traverse_tree, travNode, hv] at hq
      have hvt : v = true := by
        cases v
        · exact absurd rfl hv
        · rfl
      simp only [traverse_tree] at hq
      rcases travNode_mem hq with h0 | hk
      · subst h0
        simp [visiblePath, hvt]
      · obtain ⟨j, t, w2, hqe, -, -, hnth, hmem⟩ := travForest_mem c 0 q hk
        rw [Nat.sub_zero] at hnth
        have hw2 : wsize w2 ≤ n := by
          have h1 := nthWin_wsize hnth
          simp only [wsize] at hw
          omega
        have hvp := ih w2 hw2 op none t hmem
        subst hqe
        simp only [visiblePath, Bool.and_eq_true]
        exact ⟨hvt, by simp [hnth, hvp]⟩

theorem travNode_nodup {op : Int} {v : Bool} {h : Option (Int → Int)}
    {kids : Int × List (List Nat)} (hk : kids.2.Nodup)
    (hshape : ∀ q ∈ kids.2, ∃ j t, q = j :: t) :
    ((travNode op v h kids).2).Nodup := by
  simp only [travNode]
  split
  · simp
  · split
    · split
      · simp
      · refine List.nodup_cons.mpr ⟨?_, hk⟩
        intro hmem
        obtain ⟨j, t, hq⟩ := hshape [] hmem
        cases hq
    · exact hk

theorem trav_nodup : ∀ (n : Nat) (w : WTree), wsize w ≤ n →
    (∀ op ig, ((traverse_tree op ig w).2).Nodup) ∧
    (∀ op ig i, ((travForest op ig i w).2).Nodup) := by
  intro n
  induction n with
  | zero =>
    intro w hw
    cases w with
    | leafEnd =>
      constructor
      · intro op ig
        simp [traverse_tree]
      · intro op ig i
        simp [travForest]
    | node v h c s => simp [wsize] at hw
  | succ n ih =>
    intro w hw
    cases w with
    | leafEnd =>
      constructor
      · intro op ig
        simp [traverse_tree]
      · intro op ig i
        simp [travForest]
    | node v h c s =>
      have hc : wsize c ≤ n := by
        simp only [wsize] at hw
        omega
      have hs : wsize s ≤ n := by
        simp only [wsize] at hw
        omega
      constructor
      · intro op ig
        simp only [traverse_tree]
        apply travNode_nodup ((ih c hc).2 op ig 0)
        intro q hq
        obtain ⟨j, t, w2, hqe, -, -, -, -⟩ := travForest_mem c 0 q hq
        exact ⟨j, t, hqe⟩
      · intro op ig i
        simp only [travForest]
        by_cases hig : some i = ig
        · rw [if_pos hig]
          exact (ih s hs).2 op ig (i + 1)
        · rw [if_neg hig]
          have hr2 : ((travNode op v h (travForest op none 0 c)).2.map
              (fun q => i :: q)).Nodup := by
            apply List.Nodup.map List.cons_injective
            apply travNode_nodup ((ih c hc).2 op none 0)
            intro q hq
            obtain ⟨j, t, w2, hqe, -, -, -, -⟩ := travForest_mem c 0 q hq
            exact ⟨j, t, hqe⟩
          split
          · exact hr2
          · apply List.Nodup.append hr2 ((ih s hs).2 op ig (i + 1))
            intro a ha hb
            simp only [List.mem_map] at ha
            obtain ⟨t, -, hqe⟩ := ha
            obtain ⟨j, t2, w2, hae, hle, -, -, -⟩ := travForest_mem s (i + 1) a hb
            rw [← hqe] at hae
            injection hae with h1 h2
            omega

theorem dispatchFrom_vis : ∀ (p : List Nat) (w : WTree) (op : Int) (q : List Nat),
    visiblePath p w = true → q ∈ (dispatchFrom op p w).2 →
    visiblePath q w = true := by
  intro p
  induction p with
  | nil =>
    intro w op q hvis hq
    exact trav_vis (wsize w) w (le_refl _) op none q hq
  | cons i p ih =>
    intro w op q hvis hq
    cases w with
    | leafEnd => simp [visiblePath] at hvis
    | node v h c s =>
      simp only [visiblePath, Bool.and_eq_true] at hvis
      obtain ⟨hv, hrest⟩ := hvis
      cases hnth : nthWin c i with
      | none => simp [hnth] at hrest
      | some w2 =>
        rw [hnth] at hrest
        simp only [dispatchFrom, hnth] at hq
        split at hq
        · simp only [List.mem_map] at hq
          obtain ⟨t, ht, hqe⟩ := hq
          subst hqe
          have hvp := ih w2 op t hrest ht
          simp only [visiblePath, Bool.and_eq_true]
          exact ⟨hv, by simp [hnth, hvp]⟩
        · rcases List.mem_append.mp hq with h0 | h0
          · simp only [List.mem_map] at h0
            obtain ⟨t, ht, hqe⟩ := h0
            subst hqe
            have hvp := ih w2 op t hrest ht
            simp only [visiblePath, Bool.and_eq_true]
            exact ⟨hv, by simp [hnth, hvp]⟩
          · exact trav_vis (wsize (.node v h c s)) _ (le_refl _) op (some i) q h0

theorem dispatchFrom_nodup : ∀ (p : List Nat) (w : WTree) (op : Int),
    ((dispatchFrom op p w).2).Nodup := by
  intro p
  induction p with
  | nil =>
    intro w op
    exact (trav_nodup (wsize w) w (le_refl _)).1 op none
  | cons i p ih =>
    intro w op
    cases w with
    | leafEnd => simp [dispatchFrom]
    | node v h c s =>
      cases hnth : nthWin c i with
      | none => simp [dispatchFrom, hnth]
      | some w2 =>
        simp only [dispatchFrom, hnth]
        have hinner : ((dispatchFrom op p w2).2.map (fun q => i :: q)).Nodup :=
          List.Nodup.map List.cons_injective (ih w2 op)
        split
        · exact hinner
        · apply List.Nodup.append hinner
            ((trav_nodup (wsize (.node v h c s)) _ (le_refl _)).1 op (some i))
          intro a ha hb
          simp only [List.mem_map] at ha
          obtain ⟨t, -, hqe⟩ := ha
          rcases traverse_tree_mem_shape hb with h0 | ⟨j, t2, hae, hne⟩
          · rw [← hqe] at h0
            cases h0
          · rw [← hqe] at hae
            injection hae with h1 h2
            exact hne (by rw [h1])

/-- C1: operation dispatch never invokes the handler of an invisible
window nor of any window inside an invisible subtree: every path in the
trace of invoked handlers satisfies `visiblePath` (the window and all its
ancestors are visible); and dispatch started on an invisible window (or on
any window whose ancestor chain is not fully visible) returns the
unhandled result `IR_UNKNOWN` with an empty trace. -/
theorem window_dispatch_invisible_never (w : WTree) (p : List Nat) (op : Int) :
    (∀ q ∈ (window_dispatch_function op p w).2, visiblePath q w = true)
    ∧ (visiblePath p w = false →
        window_dispatch_function op p w = (IR_UNKNOWN, [])) := by
  constructor
  · intro q hq
    by_cases hv : mutt_window_is_visible p w = true
    · refine dispatchFrom_vis p w op q hv ?_
      simpa [window_dispatch_function, hv] using hq
    · simp [window_dispatch_function, hv] at hq
  · intro hv
    simp [window_dispatch_function, mutt_window_is_visible, hv]

theorem window_dispatch_invisible_never_witness :
    visiblePath []
      (WTree.node true (some fun _ => 7) WTree.leafEnd WTree.leafEnd) = true
    ∧ window_dispatch_function 5 [0, 0]
      (WTree.node true none
        (WTree.node false none
          (WTree.node true (some fun _ => 9) WTree.leafEnd WTree.leafEnd)
          WTree.leafEnd)
        WTree.leafEnd) = (IR_UNKNOWN, []) := by
  constructor
  · exact (window_dispatch_invisible_never
      (WTree.node true (some fun _ => 7) WTree.leafEnd WTree.leafEnd) [] 5).1 []
      (by decide)
  · exact (window_dispatch_invisible_never
      (WTree.node true none
        (WTree.node false none
          (WTree.node true (some fun _ => 9) WTree.leafEnd WTree.leafEnd)
          WTree.leafEnd)
        WTree.leafEnd) [0, 0] 5).2 (by decide)

/-- C2: a single dispatch invokes each window's handler at most once: the
trace of invoked handler paths produced by `window_dispatch_function` has
no duplicates, because each widening step excludes the branch just
searched (`ignore`). -/
theorem window_dispatch_no_duplicate (w : WTree) (p : List Nat) (op : Int) :
    ((window_dispatch_function op p w).2).Nodup := by
  by_cases hv : mutt_window_is_visible p w = true
  · simpa [window_dispatch_function, hv] using dispatchFrom_nodup p w op
  · simp [window_dispatch_function, hv]
